import Mathlib

/-!
Verification development for the go-eapaka library (EAP-AKA / EAP-AKA' packet
codec, MAC engine, key derivation and MPPE key encryption).

The Go sources are shallowly embedded: bytes are `Nat` values (< 256 at call
sites; integer casts of the source such as `uint8`/`uint16` conversions are
made explicit with `% 256` / `% 65536` where the source performs them), byte
slices are `List Nat`, fallible functions return `Option`, and the mutation of
a `Packet` performed by the MAC engine is made explicit by returning the
post-call packet.  The hash primitives from Go's standard library
(`crypto/sha1`, `crypto/sha256`, `crypto/md5`) are external collaborators and
are passed as explicit function parameters; theorems that need their output
lengths (20, 32 and 16 bytes) carry those as hypotheses.

Go's `Parse` contains the slice expression `data[4:length]` which panics at
runtime when the declared length is below 4; the embedding makes this explicit
with a dedicated `ParseResult.crash` result, so that safety claims about the
parser can be settled rather than assumed.
-/

namespace EapAka

/-- Big-endian bytes of a 16-bit value, as written by Go's
`binary.BigEndian.PutUint16` after a `uint16(v)` conversion. -/
def u16bytes (v : Nat) : List Nat :=
  [v % 65536 / 256, v % 256]

/-- Big-endian 16-bit read, as `binary.BigEndian.Uint16(l[0:2])`. -/
def readU16 (l : List Nat) : Nat :=
  l.getD 0 0 * 256 + l.getD 1 0

/-- Go's `copy(dst, src)`: the first `min |dst| |src|` bytes of `src`
followed by the untouched tail of `dst`. -/
def goCopy (dst src : List Nat) : List Nat :=
  src.take (min dst.length src.length) ++ dst.drop (min dst.length src.length)

/-- The closed set of attribute variants of the library (one constructor per
`At…` struct of the source, plus `GenericAttribute` for unknown type codes).
Go `string` fields are carried as their byte sequences. -/
inductive Attribute where
  | atRand (rand : List Nat)
  | atAutn (autn : List Nat)
  | atRes (res : List Nat)
  | atAuts (auts : List Nat)
  | atMac (mac : List Nat)
  | atIdentity (identity : List Nat)
  | atPermanentIdReq
  | atAnyIdReq
  | atFullauthIdReq
  | atResultInd
  | atBidding
  | atCheckcode (checkcode : List Nat)
  | atPadding (length : Nat)
  | atKdfInput (networkName : List Nat)
  | atKdf (kdf : Nat)
  | atNonceMt (nonceMt : List Nat)
  | atNotification (s : Bool) (p : Bool) (code : Nat)
  | atVersionList (versions : List Nat)
  | atSelectedVersion (version : Nat)
  | atCounter (counter : Nat)
  | atCounterTooSmall
  | atNonceS (nonceS : List Nat)
  | atClientErrorCode (code : Nat)
  | atIv (iv : List Nat)
  | atEncrData (encryptedData : List Nat)
  | atNextPseudonym (pseudonym : List Nat)
  | atNextReauthId (identity : List Nat)
  | generic (attrType : Nat) (data : List Nat)
deriving DecidableEq

/-- `marshalAttribute` of attributes.go: TLV framing with zero padding to a
4-byte boundary; `none` is the `"attribute too long"` error when the padded
total exceeds `255*4` bytes. -/
def marshalAttribute (t : Nat) (data : List Nat) : Option (List Nat) :=
  let total0 := 2 + data.length
  let totalLen := if total0 % 4 ≠ 0 then total0 + (4 - total0 % 4) else total0
  if totalLen > 255 * 4 then none
  else some (t :: totalLen / 4 :: (data ++ List.replicate (totalLen - total0) 0))

/-- The `Marshal` method of each attribute struct (attributes.go), dispatched
over the variant.  Each case builds the value bytes exactly as the source does
and delegates to `marshalAttribute` with the variant's type code. -/
def Attribute.marshal : Attribute → Option (List Nat)
  | .atRand r => if r.length ≠ 16 then none else marshalAttribute 1 r
  | .atAutn a => if a.length ≠ 16 then none else marshalAttribute 2 a
  | .atRes r => marshalAttribute 3 (u16bytes (r.length * 8) ++ r)
  | .atAuts a => if a.length ≠ 14 then none else marshalAttribute 4 a
  | .atMac m =>
      if m.length = 0 then marshalAttribute 11 (List.replicate 18 0)
      else if m.length ≠ 16 then none
      else marshalAttribute 11 ([0, 0] ++ m)
  | .atIdentity id => marshalAttribute 14 (u16bytes id.length ++ id)
  | .atPermanentIdReq => marshalAttribute 10 (List.replicate 2 0)
  | .atAnyIdReq => marshalAttribute 13 (List.replicate 2 0)
  | .atFullauthIdReq => marshalAttribute 17 (List.replicate 2 0)
  | .atResultInd => marshalAttribute 135 (List.replicate 2 0)
  | .atBidding => marshalAttribute 136 (List.replicate 2 0)
  | .atCheckcode c => marshalAttribute 134 ([0, 0] ++ c)
  | .atPadding n => marshalAttribute 6 (List.replicate n 0)
  | .atKdfInput nn => marshalAttribute 23 (u16bytes nn.length ++ nn)
  | .atKdf k => marshalAttribute 24 (u16bytes k)
  | .atNonceMt v => if v.length ≠ 16 then none else marshalAttribute 7 ([0, 0] ++ v)
  | .atNotification s p code =>
      let v0 := code &&& 16383
      let v1 := if s then v0 ||| 32768 else v0
      let v2 := if p then v1 ||| 16384 else v1
      marshalAttribute 12 (u16bytes v2)
  | .atVersionList vs =>
      marshalAttribute 15 (u16bytes (vs.length * 2) ++ vs.flatMap u16bytes)
  | .atSelectedVersion v => marshalAttribute 16 (u16bytes v)
  | .atCounter c => marshalAttribute 19 (u16bytes c)
  | .atCounterTooSmall => marshalAttribute 20 (List.replicate 2 0)
  | .atNonceS v => if v.length ≠ 16 then none else marshalAttribute 21 ([0, 0] ++ v)
  | .atClientErrorCode c => marshalAttribute 22 (u16bytes c)
  | .atIv v => if v.length ≠ 16 then none else marshalAttribute 129 ([0, 0] ++ v)
  | .atEncrData d => marshalAttribute 130 ([0, 0] ++ d)
  | .atNextPseudonym ps => marshalAttribute 132 (u16bytes ps.length ++ ps)
  | .atNextReauthId id => marshalAttribute 133 (u16bytes id.length ++ id)
  | .generic t d => marshalAttribute t d

/-- `decodeAttribute` of attributes_decoder.go composed with the selected
struct's `Unmarshal` method: given the attribute type code and the value
bytes (everything after the 2-byte TLV header), produce the decoded variant
or fail as the corresponding `Unmarshal` does.  Unknown codes fall back to
`GenericAttribute`, whose `Unmarshal` never fails.  In the `AT_RES` case the
source computes `resLenBits + 7` in `uint16`, so that sum wraps modulo 65536
(for `resLenBits ≥ 65529` Go accepts the attribute with an empty `Res`);
the `% 65536` reproduces that wrap. -/
def decodeAttribute (t : Nat) (data : List Nat) : Option Attribute :=
  match t with
  | 1 => if data.length < 16 then none else some (.atRand (data.take 16))
  | 2 => if data.length < 16 then none else some (.atAutn (data.take 16))
  | 3 =>
      if data.length < 2 then none
      else
        let resLenBits := readU16 data
        let resLenBytes := (resLenBits + 7) % 65536 / 8
        if data.length < 2 + resLenBytes then none
        else some (.atRes ((data.drop 2).take resLenBytes))
  | 4 => if data.length < 14 then none else some (.atAuts (data.take 14))
  | 6 => some (.atPadding data.length)
  | 7 => if data.length < 18 then none else some (.atNonceMt ((data.drop 2).take 16))
  | 10 => if data.length < 2 then none else some .atPermanentIdReq
  | 11 => if data.length < 18 then none else some (.atMac ((data.drop 2).take 16))
  | 12 =>
      if data.length < 2 then none
      else
        let val := readU16 data
        some (.atNotification (val &&& 32768 != 0) (val &&& 16384 != 0) (val &&& 16383))
  | 13 => if data.length < 2 then none else some .atAnyIdReq
  | 14 =>
      if data.length < 2 then none
      else
        let actualLen := readU16 data
        if data.length < 2 + actualLen then none
        else some (.atIdentity ((data.drop 2).take actualLen))
  | 15 =>
      if data.length < 2 then none
      else
        let actualLen := readU16 data
        if data.length < 2 + actualLen then none
        else
          let numVersions := actualLen / 2
          some (.atVersionList ((List.range numVersions).map fun i =>
            data.getD (2 + i * 2) 0 * 256 + data.getD (3 + i * 2) 0))
  | 16 => if data.length < 2 then none else some (.atSelectedVersion (readU16 data))
  | 17 => if data.length < 2 then none else some .atFullauthIdReq
  | 19 => if data.length < 2 then none else some (.atCounter (readU16 data))
  | 20 => if data.length < 2 then none else some .atCounterTooSmall
  | 21 => if data.length < 18 then none else some (.atNonceS ((data.drop 2).take 16))
  | 22 => if data.length < 2 then none else some (.atClientErrorCode (readU16 data))
  | 23 =>
      if data.length < 2 then none
      else
        let actualLen := readU16 data
        if data.length < 2 + actualLen then none
        else some (.atKdfInput ((data.drop 2).take actualLen))
  | 24 => if data.length < 2 then none else some (.atKdf (readU16 data))
  | 129 => if data.length < 18 then none else some (.atIv ((data.drop 2).take 16))
  | 130 => if data.length < 2 then none else some (.atEncrData (data.drop 2))
  | 132 =>
      if data.length < 2 then none
      else
        let actualLen := readU16 data
        if data.length < 2 + actualLen then none
        else some (.atNextPseudonym ((data.drop 2).take actualLen))
  | 133 =>
      if data.length < 2 then none
      else
        let actualLen := readU16 data
        if data.length < 2 + actualLen then none
        else some (.atNextReauthId ((data.drop 2).take actualLen))
  | 134 => if data.length < 2 then none else some (.atCheckcode (data.drop 2))
  | 135 => if data.length < 2 then none else some .atResultInd
  | 136 => if data.length < 2 then none else some .atBidding
  | _ => some (.generic t data)

/-- The `Packet` struct of packet.go.  `Typ` stands for the Go field `Type`
(a Lean keyword). -/
structure Packet where
  Code : Nat
  Identifier : Nat
  Typ : Nat
  Subtype : Nat
  Attributes : List Attribute
deriving DecidableEq

/-- The attribute loop of `Packet.Marshal`: marshal each attribute in list
order and concatenate, propagating the first error. -/
def marshalList : List Attribute → Option (List Nat)
  | [] => some []
  | a :: rest => a.marshal.bind fun b => (marshalList rest).map fun bs => b ++ bs

/-- `Packet.Marshal` (packet_marshal.go): for Request/Response emit the AKA
method header (when Type is AKA/AKA') followed by the marshalled attributes;
for Success/Failure emit nothing after the EAP header; fail when the total
EAP length would exceed the 16-bit length field. -/
def Packet.marshal (p : Packet) : Option (List Nat) :=
  let attrsBuf? : Option (List Nat) :=
    if p.Code = 1 ∨ p.Code = 2 then
      let hdr := if p.Typ = 23 ∨ p.Typ = 50 then [p.Typ, p.Subtype, 0, 0] else []
      (marshalList p.Attributes).map fun bs => hdr ++ bs
    else some []
  attrsBuf?.bind fun attrs =>
    let eapLen := 4 + attrs.length
    if eapLen > 65535 then none
    else some (p.Code :: p.Identifier :: (u16bytes eapLen ++ attrs))

/-- Result of `Parse`: a packet, a returned error, or a Go runtime panic
(`crash`, raised by the slice expression `data[4:length]` when the declared
length is below 4). -/
inductive ParseResult where
  | ok (p : Packet)
  | err
  | crash
deriving DecidableEq

/-- The attribute-stream loop of `Parse` (packet_unmarshal.go), written as
fuel-indexed recursion on the remaining bytes; `Parse` supplies
`fuel = rem.length`, which dominates the loop's iteration count since every
iteration consumes at least 4 bytes, so the `fuel = 0` branch is never
reached from `Parse`. -/
def parseAttrs (fuel : Nat) (rem : List Nat) : Option (List Attribute) :=
  match fuel, rem with
  | _, [] => some []
  | _, [_] => none
  | 0, _ :: _ :: _ => none
  | fuel + 1, t :: lw :: rest =>
      if lw = 0 then none
      else
        let attrLen := lw * 4
        if attrLen > 2 + rest.length then none
        else
          match decodeAttribute t (rest.take (attrLen - 2)) with
          | none => none
          | some a => (parseAttrs fuel ((t :: lw :: rest).drop attrLen)).map fun as2 => a :: as2

/-- `Parse` (packet_unmarshal.go).  Follows the source line by line: header
length check, declared-length check, the (crashing) payload slice, the
Success/Failure early return, the empty-payload and unknown-method early
returns, the AKA header check, and the attribute loop. -/
def Parse (data : List Nat) : ParseResult :=
  if data.length < 4 then .err
  else
    let code := data.getD 0 0
    let ident := data.getD 1 0
    let length := data.getD 2 0 * 256 + data.getD 3 0
    if length > data.length then .err
    else if length < 4 then .crash
    else
      let payload := (data.take length).drop 4
      if code = 3 ∨ code = 4 then .ok ⟨code, ident, 0, 0, []⟩
      else if payload.length = 0 then .ok ⟨code, ident, 0, 0, []⟩
      else
        let ptype := payload.getD 0 0
        if ptype ≠ 23 ∧ ptype ≠ 50 then .ok ⟨code, ident, ptype, 0, []⟩
        else if payload.length < 4 then .err
        else
          let subtype := payload.getD 1 0
          let attrData := payload.drop 4
          match parseAttrs attrData.length attrData with
          | none => .err
          | some attrs => .ok ⟨code, ident, ptype, subtype, attrs⟩

/-- The attribute type codes of types.go that `decodeAttribute` dispatches to
a dedicated struct (everything else becomes `GenericAttribute`). -/
def knownCode (t : Nat) : Bool :=
  [1, 2, 3, 4, 6, 7, 10, 11, 12, 13, 14, 15, 16, 17, 19, 20, 21, 22, 23, 24,
   129, 130, 132, 133, 134, 135, 136].contains t

/-- Decode-invertibility conditions for an attribute: exactly the variants and
value shapes for which `Unmarshal` recovers what `Marshal` wrote.  The padded
variants (`AT_PADDING`, `AT_CHECKCODE`, `AT_ENCR_DATA`, unknown codes) absorb
the TLV zero padding into their decoded value unless the length is already
aligned; an empty `AT_MAC` marshals as 16 zero bytes; notification codes with
bit 14 or 15 set are masked on encode; 16-bit fields must fit `uint16` (as
Go's types enforce). -/
def Attribute.wfB : Attribute → Bool
  | .atMac m => m.length == 16
  | .atPadding n => n % 4 == 2
  | .atCheckcode c => c.length % 4 == 0
  | .atEncrData d => d.length % 4 == 0
  | .atNotification _ _ c => decide (c < 16384)
  | .atKdf k => decide (k < 65536)
  | .atCounter c => decide (c < 65536)
  | .atSelectedVersion v => decide (v < 65536)
  | .atClientErrorCode c => decide (c < 65536)
  | .atVersionList vs => vs.all fun v => decide (v < 65536)
  | .generic t d => !knownCode t && d.length % 4 == 2
  | _ => true

/-! ## MAC engine (crypto.go)

The hash functions are abstract parameters (`s1` for SHA-1, `s2` for
SHA-256); `hmacHash` is Go's `crypto/hmac` construction with the 64-byte
block size both hashes share.  The in-place mutation of the `AT_MAC`
attribute is modelled by returning the post-call packet alongside the
result. -/

/-- The value of the first `AT_MAC` attribute of the list, if any (the MAC
engine's lookup loop takes the first match). -/
def firstMac : List Attribute → Option (List Nat)
  | [] => none
  | .atMac m :: _ => some m
  | _ :: rest => firstMac rest

/-- Replace the value of the first `AT_MAC` attribute (the MAC engine's
in-place write to `macAttr.MAC`). -/
def setFirstMac (v : List Nat) : List Attribute → List Attribute
  | [] => []
  | .atMac _ :: rest => .atMac v :: rest
  | a :: rest => a :: setFirstMac v rest

/-- Go's `crypto/hmac` over an abstract hash with 64-byte block size:
`H((k ⊕ opad) ∥ H((k ⊕ ipad) ∥ msg))` with the key hashed first when longer
than a block and zero-padded to the block size. -/
def hmacHash (h : List Nat → List Nat) (key msg : List Nat) : List Nat :=
  let k0 := if key.length > 64 then h key else key
  let kp := k0 ++ List.replicate (64 - k0.length) 0
  h ((kp.map fun b => b ^^^ 92) ++ h ((kp.map fun b => b ^^^ 54) ++ msg))

/-- Go's `subtle.ConstantTimeCompare`: equal iff same length and same
bytes. -/
def constantTimeCompare (x y : List Nat) : Bool := x == y

/-- `Packet.calculateMac` (crypto.go): HMAC-SHA-1 for Type AKA(23),
HMAC-SHA-256 for Type AKA'(50), error otherwise; the result is the first 16
bytes, with an error when the digest is shorter. -/
def Packet.calculateMac (s1 s2 : List Nat → List Nat) (p : Packet)
    (kAut data : List Nat) : Option (List Nat) :=
  let full? : Option (List Nat) :=
    if p.Typ = 23 then some (hmacHash s1 kAut data)
    else if p.Typ = 50 then some (hmacHash s2 kAut data)
    else none
  full?.bind fun full => if full.length < 16 then none else some (full.take 16)

/-- `Packet.CalculateAndSetMac` (crypto.go): find `AT_MAC` (error when
absent), zero its value, marshal, compute the MAC and write it into the
attribute.  The result is `(succeeded, post-call packet)`; note that on a
marshal or MAC-computation error the attribute is left zeroed (the source
saves the original value but never restores it). -/
def Packet.calculateAndSetMac (s1 s2 : List Nat → List Nat) (p : Packet)
    (kAut : List Nat) : Bool × Packet :=
  match firstMac p.Attributes with
  | none => (false, p)
  | some _ =>
    let p1 : Packet := { p with Attributes := setFirstMac (List.replicate 16 0) p.Attributes }
    match p1.marshal with
    | none => (false, p1)
    | some data =>
      match Packet.calculateMac s1 s2 p1 kAut data with
      | none => (false, p1)
      | some mac =>
        (true, { p1 with Attributes := setFirstMac (goCopy (List.replicate 16 0) mac) p1.Attributes })

/-- `Packet.VerifyMac` (crypto.go): find `AT_MAC` (error when absent), copy
out the received value, zero the attribute, marshal, compute the expected
MAC, restore the received value on every path, and compare in constant
time.  The result is `(some match / none on error, post-call packet)`. -/
def Packet.verifyMac (s1 s2 : List Nat → List Nat) (p : Packet)
    (kAut : List Nat) : Option Bool × Packet :=
  match firstMac p.Attributes with
  | none => (none, p)
  | some m =>
    let received := goCopy (List.replicate 16 0) m
    let p1 : Packet := { p with Attributes := setFirstMac (List.replicate 16 0) p.Attributes }
    let pRest : Packet :=
      { p1 with Attributes := setFirstMac (goCopy (List.replicate 16 0) received) p1.Attributes }
    match p1.marshal with
    | none => (none, pRest)
    | some data =>
      match Packet.calculateMac s1 s2 p1 kAut data with
      | none => (none, pRest)
      | some expected => (some (constantTimeCompare received expected), pRest)

/-! ## Key derivation (kdf.go) -/

/-- `AkaKeys` of kdf.go. -/
structure AkaKeys where
  K_encr : List Nat
  K_aut : List Nat
  MSK : List Nat
  EMSK : List Nat
deriving DecidableEq

/-- The growth loop of `prfGenAKA`: while the output is shorter than
`outputLen`, append `h(key ∥ current)`.  Fuel-indexed; `prfGenAKA` supplies
`fuel = outputLen`, which dominates the iteration count whenever the hash
output is nonempty (SHA-1 emits 20 bytes per round). -/
def prfLoop (h : List Nat → List Nat) (key : List Nat) (outputLen : Nat) :
    Nat → List Nat → List Nat → List Nat
  | 0, output, _ => output
  | fuel + 1, output, current =>
      if output.length < outputLen then
        let next := h (key ++ current)
        prfLoop h key outputLen fuel (output ++ next) next
      else output

/-- `prfGenAKA` (kdf.go): the FIPS 186-2 style chained-hash PRF,
`x₀ = h(key ∥ seed)`, `xⱼ = h(key ∥ xⱼ₋₁)`, concatenated until `outputLen`
bytes are collected and truncated to exactly `outputLen`. -/
def prfGenAKA (h : List Nat → List Nat) (key seed : List Nat) (outputLen : Nat) : List Nat :=
  let first := h (key ++ seed)
  (prfLoop h key outputLen outputLen first first).take outputLen

/-- `DeriveKeysAKA` (kdf.go): `MK = SHA-1(identity ∥ IK ∥ CK)`, a 160-byte
key block from `prfGenAKA(MK, 0x00)`, sliced into the four keys. -/
def DeriveKeysAKA (sha1 : List Nat → List Nat) (identity ck ik : List Nat) : AkaKeys :=
  let mk := sha1 (identity ++ ik ++ ck)
  let keyBlock := prfGenAKA sha1 mk [0] 160
  { K_encr := keyBlock.take 16
    K_aut := (keyBlock.drop 16).take 16
    MSK := (keyBlock.drop 32).take 64
    EMSK := (keyBlock.drop 96).take 64 }

/-- The key-expansion sequence as the specification words it:
`x₁ = SHA-1(MK ∥ 0x00)` and `xᵢ₊₁ = SHA-1(MK ∥ xᵢ)` (zero-indexed here). -/
def specAkaX (sha1 : List Nat → List Nat) (mk : List Nat) : Nat → List Nat
  | 0 => sha1 (mk ++ [0])
  | i + 1 => sha1 (mk ++ specAkaX sha1 mk i)

/-- The specification's key block: the first 160 bytes of `x₁ ∥ x₂ ∥ …`
(eight 20-byte SHA-1 outputs suffice). -/
def specAkaKeyBlock (sha1 : List Nat → List Nat) (mk : List Nat) : List Nat :=
  ((List.range 8).flatMap (specAkaX sha1 mk)).take 160

/-! ## MPPE key encryption (mppe.go)

The 2-byte random salt read from `crypto/rand` is passed in as the two
parameters `salt0 salt1` (the entropy source modelled as an input; the claim
under verification is conditioned on the entropy source succeeding), and MD5
is an abstract hash parameter. -/

/-- The block cipher loop of `EncryptMPPEKey`: `c(i) = p(i) ⊕ b(i)`,
`b(i+1) = MD5(secret ∥ c(i))`, over 16-byte blocks of the plaintext. -/
def mppeEncrypt (md5h : List Nat → List Nat) (secret : List Nat) :
    Nat → List Nat → List Nat → List Nat
  | 0, _, _ => []
  | fuel + 1, b, pt =>
      if pt.isEmpty then []
      else
        let c := List.zipWith Nat.xor (pt.take 16) b
        c ++ mppeEncrypt md5h secret fuel (md5h (secret ++ c)) (pt.drop 16)

/-- `EncryptMPPEKey` (mppe.go): validate key and Request Authenticator
lengths, force the salt's high bit, build `plaintext = len(key) ∥ key ∥ zero
padding` so the plaintext alone is a multiple of 16 bytes, then encrypt with
chained MD5.  Output is `salt ∥ ciphertext`. -/
def EncryptMPPEKey (md5h : List Nat → List Nat) (salt0 salt1 : Nat)
    (key secret reqAuth : List Nat) : Option (List Nat) :=
  if key.length = 0 ∨ key.length > 255 then none
  else if reqAuth.length ≠ 16 then none
  else
    let salt := [salt0 ||| 128, salt1]
    let plainLen := 1 + key.length
    let padLen := (16 - plainLen % 16) % 16
    let plaintext := key.length :: (key ++ List.replicate padLen 0)
    let b1 := md5h (secret ++ reqAuth ++ salt)
    some (salt ++ mppeEncrypt md5h secret plaintext.length b1 plaintext)

/-! ## Fault predicates for the attribute stream

Independent characterisations of the two ways the attribute loop of `Parse`
can fail, used to state when parsing errors occur.  Both walk the stream the
way the loop does (fuel-indexed as in `parseAttrs`). -/

/-- A framing fault in an attribute stream: a truncated 2-byte header, a zero
`LengthWords` byte, or a declared length overflowing the remaining bytes. -/
def hasFramingFault (fuel : Nat) (rem : List Nat) : Bool :=
  match fuel, rem with
  | _, [] => false
  | _, [_] => true
  | 0, _ :: _ :: _ => false
  | fuel + 1, t :: lw :: rest =>
      if lw = 0 then true
      else if lw * 4 > 2 + rest.length then true
      else hasFramingFault fuel ((t :: lw :: rest).drop (lw * 4))

/-- A decode fault in an attribute stream: a well-framed attribute whose
value bytes are rejected by its variant's `Unmarshal`. -/
def hasDecodeFault (fuel : Nat) (rem : List Nat) : Bool :=
  match fuel, rem with
  | _, [] => false
  | _, [_] => false
  | 0, _ :: _ :: _ => false
  | fuel + 1, t :: lw :: rest =>
      if lw = 0 then false
      else if lw * 4 > 2 + rest.length then false
      else
        match decodeAttribute t (rest.take (lw * 4 - 2)) with
        | none => true
        | some _ => hasDecodeFault fuel ((t :: lw :: rest).drop (lw * 4))

/-! ## Helper lemmas -/

theorem u16bytes_readU16 (n : Nat) (h : n < 65536) (tail : List Nat) :
    readU16 (u16bytes n ++ tail) = n := by
  simp only [u16bytes, readU16, List.cons_append, List.getD_cons_zero, List.getD_cons_succ]
  omega

theorem goCopy_sixteen {m : List Nat} (h : m.length = 16) :
    goCopy (List.replicate 16 0) m = m := by
  simp [goCopy, h, List.take_of_length_le, List.drop_eq_nil_of_le]

/-- Structure of a successful `marshalAttribute`: the emitted TLV is the type
byte, the length-words byte, the value and zero padding, with a 4-byte
aligned total in `[4, 1020]` that overshoots the raw total by at most 3. -/
theorem marshalAttribute_some {t : Nat} {v b : List Nat}
    (h : marshalAttribute t v = some b) :
    b = t :: b.length / 4 :: (v ++ List.replicate (b.length - (2 + v.length)) 0) ∧
    b.length % 4 = 0 ∧ 4 ≤ b.length ∧ b.length ≤ 1020 ∧
    2 + v.length ≤ b.length ∧ b.length ≤ 2 + v.length + 3 := by
  simp only [marshalAttribute] at h
  set L := if (2 + v.length) % 4 ≠ 0 then 2 + v.length + (4 - (2 + v.length) % 4)
           else 2 + v.length with hL
  have hL4 : L % 4 = 0 ∧ 2 + v.length ≤ L ∧ L ≤ 2 + v.length + 3 := by
    rw [hL]; split <;> omega
  split at h
  · exact absurd h (by simp)
  · rename_i hgt
    have hb : b = t :: L / 4 :: (v ++ List.replicate (L - (2 + v.length)) 0) :=
      ((Option.some.injEq _ _).mp h).symm
    have hblen : b.length = L := by
      rw [hb]
      simp only [List.length_cons, List.length_append, List.length_replicate]
      omega
    rw [hblen]
    exact ⟨hb, hL4.1, by omega, by omega, hL4.2.1, hL4.2.2⟩

theorem marshalAttribute_isSome {t : Nat} {v : List Nat}
    (h : 2 + v.length + 3 ≤ 1020) :
    ∃ b, marshalAttribute t v = some b := by
  simp only [marshalAttribute]
  set L := if (2 + v.length) % 4 ≠ 0 then 2 + v.length + (4 - (2 + v.length) % 4)
           else 2 + v.length with hL
  have : L ≤ 2 + v.length + 3 := by rw [hL]; split <;> omega
  split
  · omega
  · exact ⟨_, rfl⟩

/-- C6: for every attribute type code `t` and value `d`, the TLV helper fails
with the length-range error exactly when the padded total `2 + |d|` rounded up
to a multiple of 4 exceeds 1020 bytes, and otherwise returns a byte string of
exactly that padded length (a multiple of 4) consisting of the type byte, the
total length divided by 4, the value and zero padding. -/
theorem c6_tlv_helper (t : Nat) (d : List Nat) (ht : t < 256) :
    (marshalAttribute t d = none ↔ 1020 < 4 * ((2 + d.length + 3) / 4)) ∧
    ∀ b, marshalAttribute t d = some b →
      b.length = 4 * ((2 + d.length + 3) / 4) ∧ b.length % 4 = 0 ∧
      b = t :: b.length / 4 :: (d ++ List.replicate (b.length - (2 + d.length)) 0) := by
  constructor
  · simp only [marshalAttribute]
    set L := if (2 + d.length) % 4 ≠ 0 then 2 + d.length + (4 - (2 + d.length) % 4)
             else 2 + d.length with hL
    have hLeq : L = 4 * ((2 + d.length + 3) / 4) := by rw [hL]; split <;> omega
    split
    · rename_i hgt
      exact iff_of_true rfl (by omega)
    · rename_i hgt
      simp only [not_lt.mpr (by omega : 4 * ((2 + d.length + 3) / 4) ≤ 1020)]
      simp
  · intro b hb
    obtain ⟨hstruct, hmod, _, _, hge, hle⟩ := marshalAttribute_some hb
    exact ⟨by omega, hmod, hstruct⟩

/-- Witness for C6 at the concrete input `t = 1`, `d = [5]`. -/
theorem c6_tlv_helper_witness :
    (marshalAttribute 1 [5] = none ↔ 1020 < 4 * ((2 + [5].length + 3) / 4)) ∧
    ∀ b, marshalAttribute 1 [5] = some b →
      b.length = 4 * ((2 + [5].length + 3) / 4) ∧ b.length % 4 = 0 ∧
      b = 1 :: b.length / 4 :: ([5] ++ List.replicate (b.length - (2 + [5].length)) 0) :=
  c6_tlv_helper 1 [5] (by decide)

/-- C7 (amended): every input of at least 4 bytes whose declared length is
between 4 and the buffer size and whose Code byte is Success(3) or Failure(4)
parses to a header-only packet with zero Type and Subtype and no
attributes. -/
theorem c7_header_only_parse (data : List Nat) (h4 : 4 ≤ data.length)
    (hbytes : ∀ x ∈ data, x < 256)
    (hlen4 : 4 ≤ data.getD 2 0 * 256 + data.getD 3 0)
    (hlen : data.getD 2 0 * 256 + data.getD 3 0 ≤ data.length)
    (hcode : data.getD 0 0 = 3 ∨ data.getD 0 0 = 4) :
    Parse data = .ok ⟨data.getD 0 0, data.getD 1 0, 0, 0, []⟩ := by
  simp only [Parse]
  rw [if_neg (by omega), if_neg (by omega), if_neg (by omega), if_pos hcode]

/-- Witness for C7: the specification's boundary example `{3,1,0,4}` parses
to Code 3, Identifier 1, no Type/Subtype/attributes. -/
theorem c7_header_only_parse_witness :
    Parse [3, 1, 0, 4] = .ok ⟨3, 1, 0, 0, []⟩ :=
  c7_header_only_parse [3, 1, 0, 4] (by decide) (by decide) (by decide) (by decide)
    (by decide)

/-- Counterexample to C7 as stated: `{3,1,0,2}` is 4 bytes long, its declared
length 2 does not exceed the buffer size and its Code is Success(3), yet
`Parse` does not return a packet — the slice `data[4:2]` panics. -/
theorem c7_counterexample : Parse [3, 1, 0, 2] = ParseResult.crash := rfl

/-- C9: the failing input named by the claim.  On `{1,1,0,2}` (4 bytes,
declared length 2 ≤ buffer size) `Parse` evaluates `data[4:2]`, a Go runtime
panic, instead of returning a packet or an error. -/
theorem c9_parse_crash : Parse [1, 1, 0, 2] = ParseResult.crash := rfl

theorem setFirstMac_setFirstMac (v w : List Nat) (l : List Attribute) :
    setFirstMac v (setFirstMac w l) = setFirstMac v l := by
  induction l with
  | nil => rfl
  | cons a rest ih => cases a <;> simp [setFirstMac, ih]

theorem firstMac_setFirstMac {l : List Attribute} {m : List Nat}
    (h : firstMac l = some m) (v : List Nat) :
    firstMac (setFirstMac v l) = some v := by
  induction l with
  | nil => simp [firstMac] at h
  | cons a rest ih => cases a <;> simp_all [firstMac, setFirstMac]

theorem setFirstMac_self {l : List Attribute} {m : List Nat}
    (h : firstMac l = some m) : setFirstMac m l = l := by
  induction l with
  | nil => simp [firstMac] at h
  | cons a rest ih => cases a <;> simp_all [firstMac, setFirstMac]

theorem calculateMac_length {s1 s2 : List Nat → List Nat} {q : Packet}
    {k d mac : List Nat} (h : Packet.calculateMac s1 s2 q k d = some mac) :
    mac.length = 16 := by
  simp only [Packet.calculateMac] at h
  split at h <;> [skip; split at h] <;> simp only [Option.some_bind, Option.none_bind] at h
  · split at h
    · exact absurd h (by simp)
    · rename_i hlt
      rw [← ((Option.some.injEq _ _).mp h)]
      simp only [List.length_take]
      omega
  · split at h
    · exact absurd h (by simp)
    · rename_i hlt
      rw [← ((Option.some.injEq _ _).mp h)]
      simp only [List.length_take]
      omega
  · exact absurd h (by simp)

/-- C3: for every packet whose (first) `AT_MAC` attribute holds a 16-byte
value, `VerifyMac` leaves every externally observable field of the packet —
Code, Identifier, Type, Subtype and the whole attribute list, in particular
the `AT_MAC` value — unchanged, whatever the outcome. -/
theorem c3_verifyMac_preserves_packet (s1 s2 : List Nat → List Nat) (p : Packet)
    (kAut m : List Nat) (hm : firstMac p.Attributes = some m) (h16 : m.length = 16) :
    (p.verifyMac s1 s2 kAut).2 = p := by
  simp only [Packet.verifyMac, hm]
  split <;> try split
  all_goals simp only [goCopy_sixteen h16, setFirstMac_setFirstMac, setFirstMac_self hm]

/-- Witness for C3 on a concrete two-attribute packet with stub hashes. -/
theorem c3_verifyMac_preserves_packet_witness :
    (Packet.verifyMac (fun _ => List.range 20) (fun _ => List.range 32)
      ⟨1, 7, 23, 1, [.atRand (List.range 16), .atMac (List.range 16)]⟩ [9, 9]).2 =
      ⟨1, 7, 23, 1, [.atRand (List.range 16), .atMac (List.range 16)]⟩ :=
  c3_verifyMac_preserves_packet (fun _ => List.range 20) (fun _ => List.range 32)
    ⟨1, 7, 23, 1, [.atRand (List.range 16), .atMac (List.range 16)]⟩ [9, 9]
    (List.range 16) (by decide) (by decide)

/-- C4: whenever `CalculateAndSetMac` succeeds on a Request/Response packet of
Type AKA(23) or AKA'(50), an immediately following `VerifyMac` with the same
key reports a match. -/
theorem c4_calc_then_verify (s1 s2 : List Nat → List Nat) (p p2 : Packet)
    (kAut : List Nat) (hc : p.Code = 1 ∨ p.Code = 2) (ht : p.Typ = 23 ∨ p.Typ = 50)
    (hcalc : p.calculateAndSetMac s1 s2 kAut = (true, p2)) :
    (p2.verifyMac s1 s2 kAut).1 = some true := by
  simp only [Packet.calculateAndSetMac] at hcalc
  cases hfm : firstMac p.Attributes with
  | none => simp only [hfm] at hcalc; exact absurd ((Prod.mk.injEq _ _ _ _).mp hcalc).1 (by simp)
  | some m =>
  simp only [hfm] at hcalc
  cases hmar : Packet.marshal
      { p with Attributes := setFirstMac (List.replicate 16 0) p.Attributes } with
  | none => simp only [hmar] at hcalc; exact absurd ((Prod.mk.injEq _ _ _ _).mp hcalc).1 (by simp)
  | some data =>
  simp only [hmar] at hcalc
  cases hcm : Packet.calculateMac s1 s2
      { p with Attributes := setFirstMac (List.replicate 16 0) p.Attributes } kAut data with
  | none => simp only [hcm] at hcalc; exact absurd ((Prod.mk.injEq _ _ _ _).mp hcalc).1 (by simp)
  | some mac =>
  simp only [hcm] at hcalc
  have h16 : mac.length = 16 := calculateMac_length hcm
  have hp2 : p2 = { p with Attributes := (setFirstMac (goCopy (List.replicate 16 0) mac) (setFirstMac (List.replicate 16 0) p.Attributes)) } :=
    (((Prod.mk.injEq _ _ _ _).mp hcalc).2).symm
  have hmac16 : goCopy (List.replicate 16 0) mac = mac := goCopy_sixteen h16
  subst hp2
  rw [hmac16]
  have hA : firstMac (setFirstMac mac (setFirstMac (List.replicate 16 0) p.Attributes)) =
      some mac :=
    firstMac_setFirstMac (firstMac_setFirstMac hfm (List.replicate 16 0)) mac
  have hset : setFirstMac (List.replicate 16 0)
      (setFirstMac mac (setFirstMac (List.replicate 16 0) p.Attributes)) =
      setFirstMac (List.replicate 16 0) p.Attributes := by
    rw [setFirstMac_setFirstMac, setFirstMac_setFirstMac]
  simp only [Packet.verifyMac, hA, hmac16, hset, hmar, hcm]
  simp [constantTimeCompare]

/-- Witness for C4 with stub hashes: the computed MAC verifies. -/
theorem c4_calc_then_verify_witness :
    (Packet.verifyMac (fun _ => List.range 20) (fun _ => List.range 32)
      ⟨1, 7, 23, 1, [.atRand (List.range 16), .atMac (List.range 16)]⟩ [9, 9]).1 =
      some true :=
  c4_calc_then_verify (fun _ => List.range 20) (fun _ => List.range 32)
    ⟨1, 7, 23, 1, [.atRand (List.range 16), .atMac (List.replicate 16 0)]⟩
    ⟨1, 7, 23, 1, [.atRand (List.range 16), .atMac (List.range 16)]⟩ [9, 9]
    (Or.inl rfl) (Or.inl rfl) (by decide)

/-- C10: when `CalculateAndSetMac` finds an `AT_MAC` attribute but then
fails (unsupported Type or marshal error), the attribute's value is left as
16 zero bytes instead of being restored. -/
theorem c10_error_leaves_zero_mac (s1 s2 : List Nat → List Nat) (p : Packet)
    (k m : List Nat) (hm : firstMac p.Attributes = some m)
    (herr : (p.calculateAndSetMac s1 s2 k).1 = false) :
    firstMac (p.calculateAndSetMac s1 s2 k).2.Attributes = some (List.replicate 16 0) := by
  simp only [Packet.calculateAndSetMac, hm] at herr ⊢
  split
  · exact firstMac_setFirstMac hm (List.replicate 16 0)
  · rename_i data h1
    split
    · exact firstMac_setFirstMac hm (List.replicate 16 0)
    · rename_i mac h2
      rw [h1] at herr
      simp only [h2] at herr
      exact absurd herr (by simp)

/-- Witness for C10: a packet of unsupported Type 99 with an `AT_MAC` holding
a non-zero value; after the failed call the value is 16 zero bytes. -/
theorem c10_error_leaves_zero_mac_witness :
    firstMac (Packet.calculateAndSetMac (fun _ => List.range 20) (fun _ => List.range 32)
      ⟨1, 7, 99, 1, [.atMac (List.range 16)]⟩ []).2.Attributes =
      some (List.replicate 16 0) :=
  c10_error_leaves_zero_mac (fun _ => List.range 20) (fun _ => List.range 32)
    ⟨1, 7, 99, 1, [.atMac (List.range 16)]⟩ [] (List.range 16) (by decide) (by decide)

theorem specAkaX_length (h : List Nat → List Nat) (mk : List Nat)
    (h20 : ∀ x, (h x).length = 20) (n : Nat) : (specAkaX h mk n).length = 20 := by
  cases n <;> simp [specAkaX, h20]

theorem specAkaCat_length (h : List Nat → List Nat) (mk : List Nat)
    (h20 : ∀ x, (h x).length = 20) (n : Nat) :
    ((List.range n).flatMap (specAkaX h mk)).length = 20 * n := by
  induction n with
  | zero => rfl
  | succ n ih =>
    rw [List.range_succ, List.flatMap_append, List.length_append, ih]
    simp [specAkaX_length h mk h20]
    omega

theorem prfLoop_spec (h : List Nat → List Nat) (mk : List Nat)
    (h20 : ∀ x, (h x).length = 20) :
    ∀ (fuel m : Nat) (out cur : List Nat), 1 ≤ m → m ≤ 8 → 8 - m ≤ fuel →
      out = (List.range m).flatMap (specAkaX h mk) → cur = specAkaX h mk (m - 1) →
      prfLoop h mk 160 fuel out cur = (List.range 8).flatMap (specAkaX h mk) := by
  intro fuel
  induction fuel with
  | zero =>
    intro m out cur h1 h8 hf hout hcur
    have hm : m = 8 := by omega
    subst hm
    subst hout
    rfl
  | succ fuel ih =>
    intro m out cur h1 h8 hf hout hcur
    subst hout
    subst hcur
    simp only [prfLoop]
    by_cases hm8 : m = 8
    · subst hm8
      rw [if_neg (by rw [specAkaCat_length h mk h20]; omega)]
    · rw [if_pos (by rw [specAkaCat_length h mk h20]; omega)]
      have hx : h (mk ++ specAkaX h mk (m - 1)) = specAkaX h mk m := by
        conv_rhs => rw [show m = (m - 1) + 1 from by omega]
        rfl
      refine ih (m + 1) _ _ (by omega) (by omega) (by omega) ?_ ?_
      · rw [hx, List.range_succ, List.flatMap_append]
        simp
      · rw [hx]
        congr 1

theorem prfGenAKA_spec (h : List Nat → List Nat) (mk : List Nat)
    (h20 : ∀ x, (h x).length = 20) :
    prfGenAKA h mk [0] 160 = specAkaKeyBlock h mk := by
  simp only [prfGenAKA, specAkaKeyBlock]
  congr 1
  refine prfLoop_spec h mk h20 160 1 _ _ (by omega) (by omega) (by omega) ?_ rfl
  rw [show List.range 1 = [0] from rfl]
  simp [specAkaX]

theorem specAkaKeyBlock_length (h : List Nat → List Nat) (mk : List Nat)
    (h20 : ∀ x, (h x).length = 20) : (specAkaKeyBlock h mk).length = 160 := by
  simp only [specAkaKeyBlock, List.length_take, specAkaCat_length h mk h20]
  omega

/-- C5: `DeriveKeysAKA` computes `MK = SHA-1(identity ∥ IK ∥ CK)`, expands it
through the chained-SHA-1 sequence `x₁ = SHA-1(MK ∥ 0x00)`,
`xᵢ₊₁ = SHA-1(MK ∥ xᵢ)` truncated to a 160-byte key block, and slices
`K_encr = [0:16]`, `K_aut = [16:32]`, `MSK = [32:96]`, `EMSK = [96:160]`
(so 16, 16, 64 and 64 bytes respectively). -/
theorem c5_deriveKeysAKA (sha1 : List Nat → List Nat)
    (h20 : ∀ x, (sha1 x).length = 20) (identity ck ik : List Nat) :
    DeriveKeysAKA sha1 identity ck ik =
      { K_encr := (specAkaKeyBlock sha1 (sha1 (identity ++ ik ++ ck))).take 16
        K_aut := ((specAkaKeyBlock sha1 (sha1 (identity ++ ik ++ ck))).drop 16).take 16
        MSK := ((specAkaKeyBlock sha1 (sha1 (identity ++ ik ++ ck))).drop 32).take 64
        EMSK := ((specAkaKeyBlock sha1 (sha1 (identity ++ ik ++ ck))).drop 96).take 64 } ∧
    (DeriveKeysAKA sha1 identity ck ik).K_encr.length = 16 ∧
    (DeriveKeysAKA sha1 identity ck ik).K_aut.length = 16 ∧
    (DeriveKeysAKA sha1 identity ck ik).MSK.length = 64 ∧
    (DeriveKeysAKA sha1 identity ck ik).EMSK.length = 64 := by
  have hkb := prfGenAKA_spec sha1 (sha1 (identity ++ ik ++ ck)) h20
  have hlen := specAkaKeyBlock_length sha1 (sha1 (identity ++ ik ++ ck)) h20
  have hmain : DeriveKeysAKA sha1 identity ck ik =
      { K_encr := (specAkaKeyBlock sha1 (sha1 (identity ++ ik ++ ck))).take 16
        K_aut := ((specAkaKeyBlock sha1 (sha1 (identity ++ ik ++ ck))).drop 16).take 16
        MSK := ((specAkaKeyBlock sha1 (sha1 (identity ++ ik ++ ck))).drop 32).take 64
        EMSK := ((specAkaKeyBlock sha1 (sha1 (identity ++ ik ++ ck))).drop 96).take 64 } := by
    simp only [DeriveKeysAKA, hkb]
  refine ⟨hmain, ?_, ?_, ?_, ?_⟩ <;> rw [hmain] <;>
    simp only [List.length_take, List.length_drop, hlen] <;> omega

/-- Witness for C5 with a stub 20-byte hash at concrete inputs. -/
theorem c5_deriveKeysAKA_witness :
    DeriveKeysAKA (fun _ => List.range 20) [1] [2] [3] =
      { K_encr := (specAkaKeyBlock (fun _ => List.range 20)
          ((fun _ => List.range 20) ([1] ++ [3] ++ [2]))).take 16
        K_aut := ((specAkaKeyBlock (fun _ => List.range 20)
          ((fun _ => List.range 20) ([1] ++ [3] ++ [2]))).drop 16).take 16
        MSK := ((specAkaKeyBlock (fun _ => List.range 20)
          ((fun _ => List.range 20) ([1] ++ [3] ++ [2]))).drop 32).take 64
        EMSK := ((specAkaKeyBlock (fun _ => List.range 20)
          ((fun _ => List.range 20) ([1] ++ [3] ++ [2]))).drop 96).take 64 } ∧
    (DeriveKeysAKA (fun _ => List.range 20) [1] [2] [3]).K_encr.length = 16 ∧
    (DeriveKeysAKA (fun _ => List.range 20) [1] [2] [3]).K_aut.length = 16 ∧
    (DeriveKeysAKA (fun _ => List.range 20) [1] [2] [3]).MSK.length = 64 ∧
    (DeriveKeysAKA (fun _ => List.range 20) [1] [2] [3]).EMSK.length = 64 :=
  c5_deriveKeysAKA (fun _ => List.range 20) (fun _ => by simp) [1] [2] [3]

theorem mppeEncrypt_length (md5h : List Nat → List Nat) (secret : List Nat)
    (h16 : ∀ x, (md5h x).length = 16) :
    ∀ (fuel : Nat) (pt b : List Nat), b.length = 16 → pt.length ≤ fuel →
      pt.length % 16 = 0 → (mppeEncrypt md5h secret fuel b pt).length = pt.length := by
  intro fuel
  induction fuel with
  | zero =>
    intro pt b hb hf hm
    simp only [mppeEncrypt, List.length_nil]
    omega
  | succ fuel ih =>
    intro pt b hb hf hm
    simp only [mppeEncrypt]
    split
    · rename_i hemp
      simp only [List.length_nil]
      rw [List.isEmpty_iff] at hemp
      simp [hemp]
    · rename_i hemp
      rw [List.isEmpty_iff] at hemp
      have hlen : pt.length ≥ 16 := by
        rcases Nat.eq_zero_or_pos pt.length with h0 | h0
        · exact absurd (List.eq_nil_of_length_eq_zero h0) hemp
        · omega
      have hc : (List.zipWith Nat.xor (pt.take 16) b).length = 16 := by
        simp only [List.length_zipWith, List.length_take, hb]
        omega
      rw [List.length_append, hc, ih (pt.drop 16) _ (h16 _) (by simp; omega) (by simp; omega)]
      simp only [List.length_drop]
      omega

/-- C2 (amended): with a 32-byte key and a 16-byte Request Authenticator,
`EncryptMPPEKey` (once the entropy source succeeds) returns exactly 50 bytes
— the 2-byte salt followed by the encryption of
`1-byte length ∥ 32-byte key ∥ 15 zero bytes` — the plaintext alone (salt
excluded) being a multiple of 16 bytes, with the high bit of the first salt
byte forced to 1. -/
theorem c2_mppe_output (md5h : List Nat → List Nat)
    (h16 : ∀ x, (md5h x).length = 16) (salt0 salt1 : Nat)
    (key secret reqAuth : List Nat) (hk : key.length = 32)
    (hr : reqAuth.length = 16) :
    ∃ out, EncryptMPPEKey md5h salt0 salt1 key secret reqAuth = some out ∧
      out.length = 50 ∧ (out.length - 2) % 16 = 0 ∧
      (out.getD 0 0).testBit 7 = true := by
  simp only [EncryptMPPEKey]
  rw [if_neg (by simp [hk]), if_neg (by simp [hr])]
  refine ⟨_, rfl, ?_, ?_, ?_⟩
  · have hpt : (key.length :: (key ++ List.replicate ((16 - (1 + key.length) % 16) % 16) 0)).length = 48 := by
      simp [hk]
    rw [List.length_append,
      mppeEncrypt_length md5h secret h16 _ _ _ (h16 _) (by rw [hpt]) (by rw [hpt]),
      hpt]
    rfl
  · have hpt : (key.length :: (key ++ List.replicate ((16 - (1 + key.length) % 16) % 16) 0)).length = 48 := by
      simp [hk]
    rw [List.length_append,
      mppeEncrypt_length md5h secret h16 _ _ _ (h16 _) (by rw [hpt]) (by rw [hpt]),
      hpt]
    simp
  · have : ([salt0 ||| 128, salt1] ++
        mppeEncrypt md5h secret
          (key.length :: (key ++ List.replicate ((16 - (1 + key.length) % 16) % 16) 0)).length
          (md5h (secret ++ reqAuth ++ [salt0 ||| 128, salt1]))
          (key.length :: (key ++ List.replicate ((16 - (1 + key.length) % 16) % 16) 0))).getD 0 0 =
        salt0 ||| 128 := rfl
    rw [this, Nat.testBit_or]
    simp [show Nat.testBit 128 7 = true from rfl]

/-- Witness for C2's amended statement at concrete inputs. -/
theorem c2_mppe_output_witness :
    ∃ out, EncryptMPPEKey (fun _ => List.replicate 16 0) 3 4 (List.replicate 32 7)
        [5] (List.replicate 16 0) = some out ∧
      out.length = 50 ∧ (out.length - 2) % 16 = 0 ∧
      (out.getD 0 0).testBit 7 = true :=
  c2_mppe_output (fun _ => List.replicate 16 0) (fun _ => by simp) 3 4
    (List.replicate 32 7) [5] (List.replicate 16 0) (by simp) (by simp)

/-- Counterexample to C2 as stated: encrypting a 32-byte key yields 50 output
bytes, not 48 — the code pads `length ∥ key` (without the salt) to a multiple
of 16, per RFC 2548, so 15 padding bytes are added, not 13.  (The repository's
own `TestEncryptMPPEKey` expects 48 and contradicts the implementation.) -/
theorem c2_counterexample :
    (EncryptMPPEKey (fun _ => List.replicate 16 0) 0 0 (List.replicate 32 0) []
      (List.replicate 16 0)).map List.length = some 50 ∧ (50 : Nat) ≠ 48 := by
  constructor
  · rfl
  · decide

theorem parseAttrs_none_iff :
    ∀ (fuel : Nat) (rem : List Nat), rem.length ≤ fuel →
      (parseAttrs fuel rem = none ↔
        (hasFramingFault fuel rem || hasDecodeFault fuel rem) = true) := by
  intro fuel
  induction fuel with
  | zero =>
    intro rem hle
    have hnil : rem = [] := List.eq_nil_of_length_eq_zero (by omega)
    subst hnil
    simp [parseAttrs, hasFramingFault, hasDecodeFault]
  | succ fuel ih =>
    intro rem hle
    match rem with
    | [] => simp [parseAttrs, hasFramingFault, hasDecodeFault]
    | [x] => simp [parseAttrs, hasFramingFault, hasDecodeFault]
    | t :: lw :: rest =>
      simp only [parseAttrs, hasFramingFault, hasDecodeFault]
      by_cases h0 : lw = 0
      · simp [h0]
      · rw [if_neg h0, if_neg h0, if_neg h0]
        by_cases hov : lw * 4 > 2 + rest.length
        · simp [hov]
        · rw [if_neg hov, if_neg hov, if_neg hov]
          cases hdec : decodeAttribute t (rest.take (lw * 4 - 2)) with
          | none => simp
          | some a =>
            have hlen2 : ((t :: lw :: rest).drop (lw * 4)).length ≤ fuel := by
              simp only [List.length_drop, List.length_cons] at *
              omega
            simp only [Option.map_eq_none', ih _ hlen2]

/-- C8 (amended): for a Request/Response packet of Type AKA(23) or AKA'(50)
with a well-formed outer header, `Parse` returns an error exactly when the
attribute stream has a framing fault (truncated header, `LengthWords` 0, or a
declared length overflowing the remaining payload) or an attribute's value is
rejected by its variant's decoder; no packet is returned on any such
error. -/
theorem c8_attribute_stream_errors (code id typ st : Nat) (attrData : List Nat)
    (hc : code = 1 ∨ code = 2) (ht : typ = 23 ∨ typ = 50)
    (hlen : 8 + attrData.length ≤ 65535) :
    Parse ([code, id, (8 + attrData.length) / 256, (8 + attrData.length) % 256,
        typ, st, 0, 0] ++ attrData) = .err ↔
      (hasFramingFault attrData.length attrData ||
        hasDecodeFault attrData.length attrData) = true := by
  have hL : (8 + attrData.length) / 256 * 256 + (8 + attrData.length) % 256 =
      8 + attrData.length := by omega
  simp only [Parse, List.cons_append, List.nil_append, List.getD_cons_zero,
    List.getD_cons_succ, List.length_cons]
  rw [if_neg (by omega), hL, if_neg (by omega), if_neg (by omega)]
  rw [if_neg (by rcases hc with h | h <;> subst h <;> simp)]
  have htake : (code :: id :: (8 + attrData.length) / 256 ::
      (8 + attrData.length) % 256 :: typ :: st :: 0 :: 0 :: attrData).take
        (8 + attrData.length) =
      code :: id :: (8 + attrData.length) / 256 ::
        (8 + attrData.length) % 256 :: typ :: st :: 0 :: 0 :: attrData := by
    apply List.take_of_length_le
    simp only [List.length_cons]
    omega
  rw [htake]
  simp only [List.drop_succ_cons, List.drop_zero]
  rw [if_neg (by simp), if_neg (by rcases ht with h | h <;> subst h <;> simp)]
  rw [if_neg (by simp)]
  simp only [List.getD_cons_succ, List.getD_cons_zero, List.drop_succ_cons,
    List.drop_zero, List.length_cons]
  cases hp : parseAttrs attrData.length attrData with
  | none =>
    rw [(parseAttrs_none_iff attrData.length attrData (le_refl _)).mp hp]
    simp
  | some attrs =>
    have : ¬ ((hasFramingFault attrData.length attrData ||
        hasDecodeFault attrData.length attrData) = true) := by
      intro hcontra
      rw [← parseAttrs_none_iff attrData.length attrData (le_refl _)] at hcontra
      rw [hp] at hcontra
      exact absurd hcontra (by simp)
    simp [this]

/-- Witness for C8's amended statement: a stream whose single attribute has
`LengthWords = 0`, a framing fault, makes `Parse` fail. -/
theorem c8_attribute_stream_errors_witness :
    Parse ([1, 0, (8 + [(1 : Nat), 0, 0, 0].length) / 256,
        (8 + [(1 : Nat), 0, 0, 0].length) % 256, 23, 1, 0, 0] ++ [1, 0, 0, 0]) = .err ↔
      (hasFramingFault [(1 : Nat), 0, 0, 0].length [1, 0, 0, 0] ||
        hasDecodeFault [(1 : Nat), 0, 0, 0].length [1, 0, 0, 0]) = true :=
  c8_attribute_stream_errors 1 0 23 1 [1, 0, 0, 0] (Or.inl rfl) (Or.inl rfl)
    (by decide)

/-- Counterexample to C8 as stated: the stream `[1,1,0,0]` (an `AT_RAND`
attribute of declared length 4 whose 2-byte value is too short) has no
framing fault, yet `Parse` returns an error — the error comes from the
attribute decoder, not from framing. -/
theorem c8_counterexample :
    Parse [1, 0, 0, 12, 23, 1, 0, 0, 1, 1, 0, 0] = ParseResult.err ∧
    hasFramingFault 4 [1, 1, 0, 0] = false :=
  ⟨rfl, rfl⟩

theorem lorPowAdd (a n : Nat) (h : a < 2 ^ n) : a ||| 2 ^ n = 2 ^ n + a := by
  apply Nat.eq_of_testBit_eq
  intro i
  rw [Nat.testBit_or, Nat.testBit_two_pow]
  rcases lt_trichotomy i n with hi | hi | hi
  · have hne : ¬ (n = i) := by omega
    simp only [hne, decide_False, Bool.or_false]
    rw [Nat.testBit_to_div_mod, Nat.testBit_to_div_mod]
    have hsplit : (2 : Nat) ^ n = 2 ^ (n - i) * 2 ^ i := by
      rw [← pow_add]
      congr 1
      omega
    have hdiv : (2 ^ n + a) / 2 ^ i = 2 ^ (n - i) + a / 2 ^ i := by
      rw [hsplit, Nat.add_comm, Nat.add_mul_div_right _ _ (Nat.pos_pow_of_pos i (by norm_num))]
      omega
    rw [hdiv]
    have heven : (2 : Nat) ^ (n - i) % 2 = 0 := by
      have hni : n - i = (n - i - 1) + 1 := by omega
      rw [hni, pow_succ]
      omega
    rw [decide_eq_decide]
    omega
  · subst hi
    have h1 : a.testBit i = false := Nat.testBit_eq_false_of_lt h
    simp only [h1, decide_True, Bool.false_or]
    rw [Nat.testBit_to_div_mod]
    have hdiv : (2 ^ i + a) / 2 ^ i = 1 + a / 2 ^ i := by
      rw [Nat.add_comm, Nat.add_div_right _ (Nat.pos_pow_of_pos i (by norm_num))]
      omega
    rw [hdiv]
    have hz : a / 2 ^ i = 0 := Nat.div_eq_of_lt h
    simp [hz]
  · have h1 : a.testBit i = false :=
      Nat.testBit_eq_false_of_lt (lt_trans h (Nat.pow_lt_pow_right (by norm_num) hi))
    have hne : ¬ (n = i) := by omega
    have h2 : (2 ^ n + a).testBit i = false := by
      apply Nat.testBit_eq_false_of_lt
      have hlt : (2 : Nat) ^ n + a < 2 ^ (n + 1) := by
        have he : (2 : Nat) ^ (n + 1) = 2 ^ n + 2 ^ n := by rw [pow_succ]; omega
        omega
      calc 2 ^ n + a < 2 ^ (n + 1) := hlt
        _ ≤ 2 ^ i := Nat.pow_le_pow_right (by norm_num) (by omega)
    simp [h1, h2, hne]

theorem packedBits (a2 b2 c : Nat) (ha : a2 ≤ 1) (hb : b2 ≤ 1) (hc : c < 16384) :
    (a2 * 32768 + b2 * 16384 + c) &&& 32768 = a2 * 32768 ∧
    (a2 * 32768 + b2 * 16384 + c) &&& 16384 = b2 * 16384 ∧
    (a2 * 32768 + b2 * 16384 + c) &&& 16383 = c := by
  refine ⟨?_, ?_, ?_⟩
  · rw [show (32768 : Nat) = 2 ^ 15 by norm_num, Nat.and_two_pow, Nat.testBit_to_div_mod]
    have hdiv : (a2 * 2 ^ 15 + b2 * 16384 + c) / 2 ^ 15 % 2 = a2 := by omega
    rw [hdiv]
    interval_cases a2 <;> simp
  · rw [show (16384 : Nat) = 2 ^ 14 by norm_num, Nat.and_two_pow, Nat.testBit_to_div_mod]
    have hdiv : (a2 * 32768 + b2 * 2 ^ 14 + c) / 2 ^ 14 % 2 = b2 := by omega
    rw [hdiv]
    interval_cases b2 <;> simp
  · rw [show (16383 : Nat) = 2 ^ 14 - 1 by norm_num, Nat.and_pow_two_sub_one_eq_mod]
    norm_num
    omega

/-- The AT_NOTIFICATION encode/decode bit arithmetic: for `code < 0x4000` the
masked-and-flagged 16-bit word encodes and recovers `S`, `P` and the code. -/
theorem notifBits (s p : Bool) (c : Nat) (hc : c < 16384) :
    ((if p then (if s then (c &&& 16383) ||| 32768 else c &&& 16383) ||| 16384
      else if s then (c &&& 16383) ||| 32768 else c &&& 16383) =
      (if s then 1 else 0) * 32768 + (if p then 1 else 0) * 16384 + c) := by
  have h1 : c &&& 16383 = c := by
    rw [show (16383 : Nat) = 2 ^ 14 - 1 by norm_num, Nat.and_pow_two_sub_one_eq_mod]
    norm_num
    omega
  have h32 : (32768 : Nat) = 2 ^ 15 := by norm_num
  have h16 : (16384 : Nat) = 2 ^ 14 := by norm_num
  cases s <;> cases p <;> simp only [if_true, if_false, Bool.false_eq_true, h1]
  · simp
  · rw [h16, lorPowAdd c 14 (by omega)]
    omega
  · rw [h32, lorPowAdd c 15 (by omega)]
    omega
  · rw [h32, h16, Nat.lor_assoc, Nat.lor_comm (2 ^ 15) (2 ^ 14), ← Nat.lor_assoc,
      lorPowAdd c 14 (by omega), lorPowAdd (2 ^ 14 + c) 15 (by omega)]
    omega

theorem decodeAttribute_unknown {t : Nat} (h : knownCode t = false) (d : List Nat) :
    decodeAttribute t d = some (.generic t d) := by
  unfold decodeAttribute
  split
  all_goals first
    | rfl
    | (exfalso; simp_all [knownCode])

theorem flatMapU16_length (vs : List Nat) : (vs.flatMap u16bytes).length = 2 * vs.length := by
  induction vs with
  | nil => rfl
  | cons v vs ih =>
    simp only [List.flatMap_cons, List.length_append, ih, u16bytes, List.length_cons,
      List.length_nil]
    omega

theorem flatMapU16_pairs :
    ∀ (vs : List Nat), (∀ v ∈ vs, v < 65536) → ∀ (tail : List Nat),
      (List.range vs.length).map
        (fun i => (vs.flatMap u16bytes ++ tail).getD (i * 2) 0 * 256 +
          (vs.flatMap u16bytes ++ tail).getD (i * 2 + 1) 0) = vs := by
  intro vs
  induction vs with
  | nil => intro _ _; rfl
  | cons v vs ih =>
    intro h tail
    have hv : v < 65536 := h v (by simp)
    have hflat : (v :: vs).flatMap u16bytes ++ tail =
        (v % 65536 / 256) :: v % 256 :: (vs.flatMap u16bytes ++ tail) := by
      simp [u16bytes, List.flatMap_cons]
    rw [List.length_cons, List.range_succ_eq_map, List.map_cons, List.map_map]
    congr 1
    · rw [hflat]
      simp only [Nat.zero_mul, List.getD_cons_zero, Nat.zero_add, List.getD_cons_succ]
      omega
    · have hcong : ∀ i ∈ List.range vs.length,
          ((fun i => ((v :: vs).flatMap u16bytes ++ tail).getD (i * 2) 0 * 256 +
            ((v :: vs).flatMap u16bytes ++ tail).getD (i * 2 + 1) 0) ∘ Nat.succ) i =
          (fun i => (vs.flatMap u16bytes ++ tail).getD (i * 2) 0 * 256 +
            (vs.flatMap u16bytes ++ tail).getD (i * 2 + 1) 0) i := by
        intro i _
        simp only [Function.comp_apply, hflat]
        rw [show Nat.succ i * 2 = (i * 2 + 1) + 1 from by omega,
          show (i * 2 + 1) + 1 + 1 = ((i * 2 + 1) + 1) + 1 from rfl]
        simp only [List.getD_cons_succ]
      rw [List.map_congr_left hcong, ih (fun w hw => h w (List.mem_cons_of_mem v hw)) tail]

theorem versionPairs (vs : List Nat) (h : ∀ v ∈ vs, v < 65536)
    (pre : List Nat) (hpre : pre.length = 2) (tail : List Nat) :
    (List.range vs.length).map
      (fun i => (pre ++ (vs.flatMap u16bytes ++ tail)).getD (2 + i * 2) 0 * 256 +
        (pre ++ (vs.flatMap u16bytes ++ tail)).getD (3 + i * 2) 0) = vs := by
  have hcong : ∀ i ∈ List.range vs.length,
      (fun i => (pre ++ (vs.flatMap u16bytes ++ tail)).getD (2 + i * 2) 0 * 256 +
        (pre ++ (vs.flatMap u16bytes ++ tail)).getD (3 + i * 2) 0) i =
      (fun i => (vs.flatMap u16bytes ++ tail).getD (i * 2) 0 * 256 +
        (vs.flatMap u16bytes ++ tail).getD (i * 2 + 1) 0) i := by
    intro i _
    have h1 : (pre ++ (vs.flatMap u16bytes ++ tail)).getD (2 + i * 2) 0 =
        (vs.flatMap u16bytes ++ tail).getD (i * 2) 0 := by
      rw [List.getD_append_right _ _ _ _ (by omega), hpre]
      congr 1
      omega
    have h2 : (pre ++ (vs.flatMap u16bytes ++ tail)).getD (3 + i * 2) 0 =
        (vs.flatMap u16bytes ++ tail).getD (i * 2 + 1) 0 := by
      rw [List.getD_append_right _ _ _ _ (by omega), hpre]
      congr 1
      omega
    simp only [h1, h2]
  rw [List.map_congr_left hcong, flatMapU16_pairs vs h tail]

/-- Per-variant round trip: a well-formed attribute that marshals to the TLV
`b` is recovered by the decode dispatcher from `b`'s type byte and value
bytes (the marshalled value plus the TLV zero padding). -/
theorem decode_marshal {a : Attribute} (hw : a.wfB = true) {b : List Nat}
    (hm : a.marshal = some b) :
    decodeAttribute (b.getD 0 0) (b.drop 2) = some a := by
  cases a with
  | atRand r =>
    simp only [Attribute.marshal] at hm
    split at hm
    · exact absurd hm (by simp)
    · rename_i hr
      obtain ⟨hb, hmod, h4, h1020, hge, hle⟩ := marshalAttribute_some hm
      have hr16 : r.length = 16 := by omega
      rw [hb]
      simp only [List.getD_cons_zero, List.drop_succ_cons, List.drop_zero]
      simp only [decodeAttribute]
      rw [if_neg (by simp only [List.length_append, List.length_replicate]; omega),
        List.take_left' hr16]
  | atAutn r =>
    simp only [Attribute.marshal] at hm
    split at hm
    · exact absurd hm (by simp)
    · rename_i hr
      obtain ⟨hb, hmod, h4, h1020, hge, hle⟩ := marshalAttribute_some hm
      have hr16 : r.length = 16 := by omega
      rw [hb]
      simp only [List.getD_cons_zero, List.drop_succ_cons, List.drop_zero]
      simp only [decodeAttribute]
      rw [if_neg (by simp only [List.length_append, List.length_replicate]; omega),
        List.take_left' hr16]
  | atRes r =>
    simp only [Attribute.marshal] at hm
    obtain ⟨hb, hmod, h4, h1020, hge, hle⟩ := marshalAttribute_some hm
    have hvl : (u16bytes (r.length * 8) ++ r).length = 2 + r.length := by
      simp [u16bytes]
      omega
    rw [hvl] at hge hle
    have hrb : r.length * 8 < 65536 := by omega
    rw [hb, List.append_assoc]
    simp only [List.getD_cons_zero, List.drop_succ_cons, List.drop_zero]
    simp only [decodeAttribute]
    rw [if_neg (by
      simp only [List.length_append, u16bytes, List.length_cons, List.length_nil]
      omega)]
    rw [u16bytes_readU16 _ hrb, show (r.length * 8 + 7) % 65536 / 8 = r.length from by omega]
    rw [if_neg (by
      simp only [List.length_append, u16bytes, List.length_cons, List.length_nil,
        List.length_replicate]
      omega)]
    rw [List.drop_left' (by simp [u16bytes]), List.take_left' rfl]
  | atAuts r =>
    simp only [Attribute.marshal] at hm
    split at hm
    · exact absurd hm (by simp)
    · rename_i hr
      obtain ⟨hb, hmod, h4, h1020, hge, hle⟩ := marshalAttribute_some hm
      have hr14 : r.length = 14 := by omega
      rw [hb]
      simp only [List.getD_cons_zero, List.drop_succ_cons, List.drop_zero]
      simp only [decodeAttribute]
      rw [if_neg (by simp only [List.length_append, List.length_replicate]; omega),
        List.take_left' hr14]
  | atMac m =>
    have hm16 : m.length = 16 := by simpa [Attribute.wfB] using hw
    simp only [Attribute.marshal] at hm
    rw [if_neg (by omega), if_neg (by omega)] at hm
    obtain ⟨hb, hmod, h4, h1020, hge, hle⟩ := marshalAttribute_some hm
    rw [hb, List.append_assoc]
    simp only [List.getD_cons_zero, List.drop_succ_cons, List.drop_zero]
    simp only [decodeAttribute]
    rw [if_neg (by
      simp only [List.length_append, List.length_cons, List.length_nil]
      omega)]
    simp only [List.cons_append, List.nil_append, List.drop_succ_cons, List.drop_zero]
    rw [List.take_left' hm16]
  | atIdentity iden =>
    simp only [Attribute.marshal] at hm
    obtain ⟨hb, hmod, h4, h1020, hge, hle⟩ := marshalAttribute_some hm
    have hvl : (u16bytes iden.length ++ iden).length = 2 + iden.length := by
      simp [u16bytes]
      omega
    rw [hvl] at hge hle
    have hib : iden.length < 65536 := by omega
    rw [hb, List.append_assoc]
    simp only [List.getD_cons_zero, List.drop_succ_cons, List.drop_zero]
    simp only [decodeAttribute]
    rw [if_neg (by
      simp only [List.length_append, u16bytes, List.length_cons, List.length_nil]
      omega)]
    rw [u16bytes_readU16 _ hib]
    rw [if_neg (by
      simp only [List.length_append, u16bytes, List.length_cons, List.length_nil,
        List.length_replicate]
      omega)]
    rw [List.drop_left' (by simp [u16bytes]), List.take_left' rfl]
  | atPermanentIdReq =>
    simp only [Attribute.marshal] at hm
    obtain ⟨hb, hmod, h4, h1020, hge, hle⟩ := marshalAttribute_some hm
    rw [hb]
    simp only [List.getD_cons_zero, List.drop_succ_cons, List.drop_zero]
    simp only [decodeAttribute]
    rw [if_neg (by simp only [List.length_append, List.length_replicate]; omega)]
  | atAnyIdReq =>
    simp only [Attribute.marshal] at hm
    obtain ⟨hb, hmod, h4, h1020, hge, hle⟩ := marshalAttribute_some hm
    rw [hb]
    simp only [List.getD_cons_zero, List.drop_succ_cons, List.drop_zero]
    simp only [decodeAttribute]
    rw [if_neg (by simp only [List.length_append, List.length_replicate]; omega)]
  | atFullauthIdReq =>
    simp only [Attribute.marshal] at hm
    obtain ⟨hb, hmod, h4, h1020, hge, hle⟩ := marshalAttribute_some hm
    rw [hb]
    simp only [List.getD_cons_zero, List.drop_succ_cons, List.drop_zero]
    simp only [decodeAttribute]
    rw [if_neg (by simp only [List.length_append, List.length_replicate]; omega)]
  | atResultInd =>
    simp only [Attribute.marshal] at hm
    obtain ⟨hb, hmod, h4, h1020, hge, hle⟩ := marshalAttribute_some hm
    rw [hb]
    simp only [List.getD_cons_zero, List.drop_succ_cons, List.drop_zero]
    simp only [decodeAttribute]
    rw [if_neg (by simp only [List.length_append, List.length_replicate]; omega)]
  | atBidding =>
    simp only [Attribute.marshal] at hm
    obtain ⟨hb, hmod, h4, h1020, hge, hle⟩ := marshalAttribute_some hm
    rw [hb]
    simp only [List.getD_cons_zero, List.drop_succ_cons, List.drop_zero]
    simp only [decodeAttribute]
    rw [if_neg (by simp only [List.length_append, List.length_replicate]; omega)]
  | atCheckcode c =>
    have hc4 : c.length % 4 = 0 := by simpa [Attribute.wfB] using hw
    simp only [Attribute.marshal] at hm
    obtain ⟨hb, hmod, h4, h1020, hge, hle⟩ := marshalAttribute_some hm
    have hvl : ([0, 0] ++ c).length = 2 + c.length := by simp; omega
    rw [hvl] at hge hle
    have hpad : b.length - (2 + ([0, 0] ++ c).length) = 0 := by
      simp only [List.length_append, List.length_cons, List.length_nil]
      omega
    rw [hb, hpad]
    simp only [List.replicate_zero, List.append_nil, List.cons_append, List.nil_append,
      List.getD_cons_zero, List.drop_succ_cons, List.drop_zero]
    simp only [decodeAttribute]
    rw [if_neg (by simp only [List.length_cons]; omega)]
    simp only [List.drop_succ_cons, List.drop_zero]
  | atPadding n =>
    have hn4 : n % 4 = 2 := by simpa [Attribute.wfB] using hw
    simp only [Attribute.marshal] at hm
    obtain ⟨hb, hmod, h4, h1020, hge, hle⟩ := marshalAttribute_some hm
    rw [List.length_replicate n 0] at hge hle
    have hpad : b.length - (2 + (List.replicate n (0 : Nat)).length) = 0 := by
      simp only [List.length_replicate]
      omega
    rw [hb, hpad]
    simp only [List.replicate_zero, List.append_nil, List.getD_cons_zero,
      List.drop_succ_cons, List.drop_zero]
    simp only [decodeAttribute, List.length_replicate]
  | atKdfInput nn =>
    simp only [Attribute.marshal] at hm
    obtain ⟨hb, hmod, h4, h1020, hge, hle⟩ := marshalAttribute_some hm
    have hvl : (u16bytes nn.length ++ nn).length = 2 + nn.length := by
      simp [u16bytes]
      omega
    rw [hvl] at hge hle
    have hib : nn.length < 65536 := by omega
    rw [hb, List.append_assoc]
    simp only [List.getD_cons_zero, List.drop_succ_cons, List.drop_zero]
    simp only [decodeAttribute]
    rw [if_neg (by
      simp only [List.length_append, u16bytes, List.length_cons, List.length_nil]
      omega)]
    rw [u16bytes_readU16 _ hib]
    rw [if_neg (by
      simp only [List.length_append, u16bytes, List.length_cons, List.length_nil,
        List.length_replicate]
      omega)]
    rw [List.drop_left' (by simp [u16bytes]), List.take_left' rfl]
  | atKdf k =>
    have hk : k < 65536 := of_decide_eq_true (by simpa [Attribute.wfB] using hw)
    simp only [Attribute.marshal] at hm
    obtain ⟨hb, hmod, h4, h1020, hge, hle⟩ := marshalAttribute_some hm
    rw [hb]
    simp only [List.getD_cons_zero, List.drop_succ_cons, List.drop_zero]
    simp only [decodeAttribute]
    rw [if_neg (by
      simp only [List.length_append, u16bytes, List.length_cons, List.length_nil]
      omega)]
    rw [u16bytes_readU16 _ hk]
  | atNonceMt v =>
    simp only [Attribute.marshal] at hm
    split at hm
    · exact absurd hm (by simp)
    · rename_i hv
      have hv16 : v.length = 16 := by omega
      obtain ⟨hb, hmod, h4, h1020, hge, hle⟩ := marshalAttribute_some hm
      rw [hb, List.append_assoc]
      simp only [List.getD_cons_zero, List.drop_succ_cons, List.drop_zero]
      simp only [decodeAttribute]
      rw [if_neg (by
        simp only [List.length_append, List.length_cons, List.length_nil]
        omega)]
      simp only [List.cons_append, List.nil_append, List.drop_succ_cons, List.drop_zero]
      rw [List.take_left' hv16]
  | atNotification s p c =>
    have hc : c < 16384 := of_decide_eq_true (by simpa [Attribute.wfB] using hw)
    simp only [Attribute.marshal] at hm
    rw [notifBits s p c hc] at hm
    obtain ⟨hb, hmod, h4, h1020, hge, hle⟩ := marshalAttribute_some hm
    have hVlt : (if s then 1 else 0) * 32768 + (if p then 1 else 0) * 16384 + c < 65536 := by
      cases s <;> cases p <;> simp <;> omega
    rw [hb]
    simp only [List.getD_cons_zero, List.drop_succ_cons, List.drop_zero]
    simp only [decodeAttribute]
    rw [if_neg (by
      simp only [List.length_append, u16bytes, List.length_cons, List.length_nil]
      omega)]
    rw [u16bytes_readU16 _ hVlt]
    obtain ⟨hA, hB, hC⟩ := packedBits (if s then 1 else 0) (if p then 1 else 0) c
      (by cases s <;> simp) (by cases p <;> simp) hc
    rw [hA, hB, hC]
    cases s <;> cases p <;> rfl
  | atVersionList vs =>
    have hvs : ∀ v ∈ vs, v < 65536 := by
      simpa [Attribute.wfB, List.all_eq_true] using hw
    simp only [Attribute.marshal] at hm
    obtain ⟨hb, hmod, h4, h1020, hge, hle⟩ := marshalAttribute_some hm
    have hvl : (u16bytes (vs.length * 2) ++ vs.flatMap u16bytes).length =
        2 + 2 * vs.length := by
      rw [List.length_append, flatMapU16_length]
      simp [u16bytes]
    rw [hvl] at hge hle
    have hvb : vs.length * 2 < 65536 := by omega
    rw [hb, List.append_assoc]
    simp only [List.getD_cons_zero, List.drop_succ_cons, List.drop_zero]
    simp only [decodeAttribute]
    rw [if_neg (by
      simp only [List.length_append, u16bytes, List.length_cons, List.length_nil]
      omega)]
    rw [u16bytes_readU16 _ hvb]
    rw [if_neg (by
      simp only [List.length_append, u16bytes, List.length_cons, List.length_nil,
        List.length_replicate, flatMapU16_length]
      omega)]
    rw [show vs.length * 2 / 2 = vs.length from by omega]
    rw [versionPairs vs hvs (u16bytes (vs.length * 2)) (by simp [u16bytes]) _]
  | atSelectedVersion k =>
    have hk : k < 65536 := of_decide_eq_true (by simpa [Attribute.wfB] using hw)
    simp only [Attribute.marshal] at hm
    obtain ⟨hb, hmod, h4, h1020, hge, hle⟩ := marshalAttribute_some hm
    rw [hb]
    simp only [List.getD_cons_zero, List.drop_succ_cons, List.drop_zero]
    simp only [decodeAttribute]
    rw [if_neg (by
      simp only [List.length_append, u16bytes, List.length_cons, List.length_nil]
      omega)]
    rw [u16bytes_readU16 _ hk]
  | atCounter k =>
    have hk : k < 65536 := of_decide_eq_true (by simpa [Attribute.wfB] using hw)
    simp only [Attribute.marshal] at hm
    obtain ⟨hb, hmod, h4, h1020, hge, hle⟩ := marshalAttribute_some hm
    rw [hb]
    simp only [List.getD_cons_zero, List.drop_succ_cons, List.drop_zero]
    simp only [decodeAttribute]
    rw [if_neg (by
      simp only [List.length_append, u16bytes, List.length_cons, List.length_nil]
      omega)]
    rw [u16bytes_readU16 _ hk]
  | atCounterTooSmall =>
    simp only [Attribute.marshal] at hm
    obtain ⟨hb, hmod, h4, h1020, hge, hle⟩ := marshalAttribute_some hm
    rw [hb]
    simp only [List.getD_cons_zero, List.drop_succ_cons, List.drop_zero]
    simp only [decodeAttribute]
    rw [if_neg (by simp only [List.length_append, List.length_replicate]; omega)]
  | atNonceS v =>
    simp only [Attribute.marshal] at hm
    split at hm
    · exact absurd hm (by simp)
    · rename_i hv
      have hv16 : v.length = 16 := by omega
      obtain ⟨hb, hmod, h4, h1020, hge, hle⟩ := marshalAttribute_some hm
      rw [hb, List.append_assoc]
      simp only [List.getD_cons_zero, List.drop_succ_cons, List.drop_zero]
      simp only [decodeAttribute]
      rw [if_neg (by
        simp only [List.length_append, List.length_cons, List.length_nil]
        omega)]
      simp only [List.cons_append, List.nil_append, List.drop_succ_cons, List.drop_zero]
      rw [List.take_left' hv16]
  | atClientErrorCode k =>
    have hk : k < 65536 := of_decide_eq_true (by simpa [Attribute.wfB] using hw)
    simp only [Attribute.marshal] at hm
    obtain ⟨hb, hmod, h4, h1020, hge, hle⟩ := marshalAttribute_some hm
    rw [hb]
    simp only [List.getD_cons_zero, List.drop_succ_cons, List.drop_zero]
    simp only [decodeAttribute]
    rw [if_neg (by
      simp only [List.length_append, u16bytes, List.length_cons, List.length_nil]
      omega)]
    rw [u16bytes_readU16 _ hk]
  | atIv v =>
    simp only [Attribute.marshal] at hm
    split at hm
    · exact absurd hm (by simp)
    · rename_i hv
      have hv16 : v.length = 16 := by omega
      obtain ⟨hb, hmod, h4, h1020, hge, hle⟩ := marshalAttribute_some hm
      rw [hb, List.append_assoc]
      simp only [List.getD_cons_zero, List.drop_succ_cons, List.drop_zero]
      simp only [decodeAttribute]
      rw [if_neg (by
        simp only [List.length_append, List.length_cons, List.length_nil]
        omega)]
      simp only [List.cons_append, List.nil_append, List.drop_succ_cons, List.drop_zero]
      rw [List.take_left' hv16]
  | atEncrData d =>
    have hd4 : d.length % 4 = 0 := by simpa [Attribute.wfB] using hw
    simp only [Attribute.marshal] at hm
    obtain ⟨hb, hmod, h4, h1020, hge, hle⟩ := marshalAttribute_some hm
    have hvl : ([0, 0] ++ d).length = 2 + d.length := by simp; omega
    rw [hvl] at hge hle
    have hpad : b.length - (2 + ([0, 0] ++ d).length) = 0 := by
      simp only [List.length_append, List.length_cons, List.length_nil]
      omega
    rw [hb, hpad]
    simp only [List.replicate_zero, List.append_nil, List.cons_append, List.nil_append,
      List.getD_cons_zero, List.drop_succ_cons, List.drop_zero]
    simp only [decodeAttribute]
    rw [if_neg (by simp only [List.length_cons]; omega)]
    simp only [List.drop_succ_cons, List.drop_zero]
  | atNextPseudonym ps =>
    simp only [Attribute.marshal] at hm
    obtain ⟨hb, hmod, h4, h1020, hge, hle⟩ := marshalAttribute_some hm
    have hvl : (u16bytes ps.length ++ ps).length = 2 + ps.length := by
      simp [u16bytes]
      omega
    rw [hvl] at hge hle
    have hib : ps.length < 65536 := by omega
    rw [hb, List.append_assoc]
    simp only [List.getD_cons_zero, List.drop_succ_cons, List.drop_zero]
    simp only [decodeAttribute]
    rw [if_neg (by
      simp only [List.length_append, u16bytes, List.length_cons, List.length_nil]
      omega)]
    rw [u16bytes_readU16 _ hib]
    rw [if_neg (by
      simp only [List.length_append, u16bytes, List.length_cons, List.length_nil,
        List.length_replicate]
      omega)]
    rw [List.drop_left' (by simp [u16bytes]), List.take_left' rfl]
  | atNextReauthId iden =>
    simp only [Attribute.marshal] at hm
    obtain ⟨hb, hmod, h4, h1020, hge, hle⟩ := marshalAttribute_some hm
    have hvl : (u16bytes iden.length ++ iden).length = 2 + iden.length := by
      simp [u16bytes]
      omega
    rw [hvl] at hge hle
    have hib : iden.length < 65536 := by omega
    rw [hb, List.append_assoc]
    simp only [List.getD_cons_zero, List.drop_succ_cons, List.drop_zero]
    simp only [decodeAttribute]
    rw [if_neg (by
      simp only [List.length_append, u16bytes, List.length_cons, List.length_nil]
      omega)]
    rw [u16bytes_readU16 _ hib]
    rw [if_neg (by
      simp only [List.length_append, u16bytes, List.length_cons, List.length_nil,
        List.length_replicate]
      omega)]
    rw [List.drop_left' (by simp [u16bytes]), List.take_left' rfl]
  | generic t d =>
    have hg : knownCode t = false ∧ d.length % 4 = 2 := by
      simpa [Attribute.wfB, Bool.and_eq_true, Bool.not_eq_true'] using hw
    simp only [Attribute.marshal] at hm
    obtain ⟨hb, hmod, h4, h1020, hge, hle⟩ := marshalAttribute_some hm
    have hpad : b.length - (2 + d.length) = 0 := by omega
    rw [hb, hpad]
    simp only [List.replicate_zero, List.append_nil, List.getD_cons_zero,
      List.drop_succ_cons, List.drop_zero]
    exact decodeAttribute_unknown hg.1 d

/-- Every successful attribute marshal factors through `marshalAttribute`. -/
theorem marshal_shape {a : Attribute} {b : List Nat} (hm : a.marshal = some b) :
    ∃ t v, marshalAttribute t v = some b := by
  cases a <;> simp only [Attribute.marshal] at hm
  all_goals
    repeat
      first
      | exact ⟨_, _, hm⟩
      | split at hm
      | exact absurd hm (by simp)

/-- The attribute loop of `Parse` consumes a marshalled stream of well-formed
attributes and returns exactly that attribute list. -/
theorem parseAttrs_marshalList :
    ∀ (attrs : List Attribute) (bs : List Nat), marshalList attrs = some bs →
      (∀ a ∈ attrs, a.wfB = true) → ∀ fuel, bs.length ≤ fuel →
      parseAttrs fuel bs = some attrs := by
  intro attrs
  induction attrs with
  | nil =>
    intro bs hm _ fuel _
    simp only [marshalList] at hm
    rw [← ((Option.some.injEq _ _).mp hm)]
    cases fuel <;> rfl
  | cons a rest ih =>
    intro bs hm hws fuel hfuel
    simp only [marshalList] at hm
    cases hma : a.marshal with
    | none => rw [hma] at hm; exact absurd hm (by simp)
    | some b =>
    rw [hma] at hm
    cases hml : marshalList rest with
    | none => rw [hml] at hm; exact absurd hm (by simp)
    | some bs2 =>
    rw [hml] at hm
    have hbs : bs = b ++ bs2 := by
      simpa using hm.symm
    subst hbs
    obtain ⟨t, v, hmv⟩ := marshal_shape hma
    obtain ⟨hb, hmod, h4, h1020, hge, hle⟩ := marshalAttribute_some hmv
    have hdec := decode_marshal (hws a (by simp)) hma
    have hblen : b.length + bs2.length ≤ fuel := by
      simpa using hfuel
    obtain ⟨fuel, rfl⟩ : ∃ f, fuel = f + 1 := ⟨fuel - 1, by omega⟩
    have hbcons : b ++ bs2 = t :: b.length / 4 ::
        ((v ++ List.replicate (b.length - (2 + v.length)) 0) ++ bs2) := by
      conv_lhs => rw [hb]
      rw [List.cons_append, List.cons_append]
    rw [hbcons]
    have hvplen : (v ++ List.replicate (b.length - (2 + v.length)) 0).length =
        b.length - 2 := by
      simp only [List.length_append, List.length_replicate]
      omega
    simp only [parseAttrs]
    rw [if_neg (by omega : ¬ b.length / 4 = 0)]
    have hmul : b.length / 4 * 4 = b.length := by omega
    rw [hmul]
    rw [if_neg (by
      simp only [List.length_append, hvplen]
      omega)]
    have htake : ((v ++ List.replicate (b.length - (2 + v.length)) 0) ++ bs2).take
        (b.length - 2) = v ++ List.replicate (b.length - (2 + v.length)) 0 :=
      List.take_left' hvplen
    rw [htake]
    have hdec2 : decodeAttribute t (v ++ List.replicate (b.length - (2 + v.length)) 0) =
        some a := by
      have hg0 : b.getD 0 0 = t := by rw [hb]; rfl
      have hd2 : b.drop 2 = v ++ List.replicate (b.length - (2 + v.length)) 0 := by
        conv_lhs => rw [hb]
        simp only [List.drop_succ_cons, List.drop_zero]
      rw [hg0, hd2] at hdec
      exact hdec
    rw [hdec2]
    have hdrop : (t :: b.length / 4 ::
        ((v ++ List.replicate (b.length - (2 + v.length)) 0) ++ bs2)).drop b.length =
        bs2 := by
      rw [← hbcons, List.drop_left]
    rw [hdrop, ih bs2 hml (fun x hx => hws x (by simp [hx])) fuel (by omega)]
    rfl

/-- C1 (amended): for every packet with Code Request(1)/Response(2) and Type
AKA(23)/AKA'(50) whose attribute list marshals without error and whose
attributes satisfy the decode-invertibility conditions of `Attribute.wfB`,
parsing the marshalled bytes returns a packet structurally equal to the
original — same Code, Identifier, Type, Subtype and attribute list in
order. -/
theorem c1_roundtrip (p : Packet) (b : List Nat)
    (hc : p.Code = 1 ∨ p.Code = 2) (ht : p.Typ = 23 ∨ p.Typ = 50)
    (hw : ∀ a ∈ p.Attributes, a.wfB = true)
    (hm : p.marshal = some b) :
    Parse b = ParseResult.ok p := by
  simp only [Packet.marshal] at hm
  rw [if_pos hc, if_pos ht] at hm
  cases hml : marshalList p.Attributes with
  | none => rw [hml] at hm; exact absurd hm (by simp)
  | some bs =>
  rw [hml] at hm
  simp only [Option.map_some', Option.some_bind] at hm
  split at hm
  · exact absurd hm (by simp)
  rename_i hlen
  have hb2 : b = p.Code :: p.Identifier ::
      (u16bytes (4 + ([p.Typ, p.Subtype, 0, 0] ++ bs).length) ++
        ([p.Typ, p.Subtype, 0, 0] ++ bs)) := ((Option.some.injEq _ _).mp hm).symm
  subst hb2
  have hL : 4 + ([p.Typ, p.Subtype, 0, 0] ++ bs).length = 8 + bs.length := by
    simp only [List.length_append, List.length_cons, List.length_nil]
    omega
  rw [hL] at hlen ⊢
  have hlen2 : 8 + bs.length ≤ 65535 := by omega
  have hparse := parseAttrs_marshalList p.Attributes bs hml hw bs.length (le_refl _)
  have hread : (8 + bs.length) % 65536 / 256 * 256 + (8 + bs.length) % 256 =
      8 + bs.length := by omega
  simp only [Parse, u16bytes, List.cons_append, List.nil_append, List.getD_cons_zero,
    List.getD_cons_succ, List.length_cons]
  rw [hread]
  rw [if_neg (by omega), if_neg (by omega), if_neg (by omega)]
  rw [if_neg (by rcases hc with h | h <;> rw [h] <;> simp)]
  rw [List.take_of_length_le (by simp only [List.length_cons]; omega)]
  simp only [List.drop_succ_cons, List.drop_zero]
  rw [if_neg (by simp)]
  rw [if_neg (by rcases ht with h | h <;> rw [h] <;> simp)]
  rw [if_neg (by simp only [List.length_cons]; omega)]
  simp only [List.getD_cons_succ, List.getD_cons_zero, List.drop_succ_cons,
    List.drop_zero]
  rw [hparse]

/-- Witness for C1's amended statement: a Request/AKA packet with `AT_RAND`
and `AT_IDENTITY` attributes round-trips through `Marshal` and `Parse`. -/
theorem c1_roundtrip_witness :
    Parse [1, 7, 0, 36, 23, 1, 0, 0, 1, 5, 0, 1, 2, 3, 4, 5, 6, 7, 8, 9, 10, 11, 12,
        13, 14, 15, 0, 0, 14, 2, 0, 2, 104, 105, 0, 0] =
      ParseResult.ok ⟨1, 7, 23, 1, [.atRand (List.range 16), .atIdentity [104, 105]]⟩ :=
  c1_roundtrip ⟨1, 7, 23, 1, [.atRand (List.range 16), .atIdentity [104, 105]]⟩
    [1, 7, 0, 36, 23, 1, 0, 0, 1, 5, 0, 1, 2, 3, 4, 5, 6, 7, 8, 9, 10, 11, 12, 13,
      14, 15, 0, 0, 14, 2, 0, 2, 104, 105, 0, 0]
    (Or.inl rfl) (Or.inl rfl) (by decide) (by rfl)

/-- Counterexample to C1 as stated: the packet with the single attribute
`AT_PADDING{Length: 1}` marshals without error (its TLV is padded to 4
bytes), but parsing the result yields `AT_PADDING{Length: 2}` — the decoder
records the padded value length — so `Parse(Marshal(P))` is not structurally
equal to `P`. -/
theorem c1_counterexample :
    Packet.marshal ⟨1, 0, 23, 1, [.atPadding 1]⟩ =
      some [1, 0, 0, 12, 23, 1, 0, 0, 6, 1, 0, 0] ∧
    Parse [1, 0, 0, 12, 23, 1, 0, 0, 6, 1, 0, 0] =
      ParseResult.ok ⟨1, 0, 23, 1, [.atPadding 2]⟩ ∧
    (⟨1, 0, 23, 1, [.atPadding 2]⟩ : Packet) ≠ ⟨1, 0, 23, 1, [.atPadding 1]⟩ := by
  refine ⟨rfl, rfl, ?_⟩
  decide

end EapAka
